import Mathlib

/-!
# Verification of the lexilight core algorithms

Shallow embedding of the two core algorithms of the repository:

* the text highlighting engine (`createHighlightedSegments`,
  `mergeOverlappingHighlights`, `validateHighlightRules`) from
  `src/server/API_RESPONSE_FORMAT.md` (the `textHighlighter` module), and
* the PDF layout reconstructor (`extractTextFromPDF`) from the pdf parser
  module.

Documents and texts are modelled as `List Char`; JS string indices are `Nat`;
PDF coordinates (which are small integers in all properties of interest) are
modelled as `Int`.
-/

namespace LexiLight

/-- The set of characters matched by JavaScript `\s` (and removed by
`String.prototype.trim`): tab, LF, VT, FF, CR, space, NBSP, Ogham space,
the U+2000–U+200A range, LS, PS, NNBSP, MMSP, ideographic space, BOM. -/
def isJsWs (c : Char) : Bool :=
  c.val == 0x09 || c.val == 0x0A || c.val == 0x0B || c.val == 0x0C ||
  c.val == 0x0D || c.val == 0x20 || c.val == 0xA0 || c.val == 0x1680 ||
  (0x2000 ≤ c.val && c.val ≤ 0x200A) || c.val == 0x2028 || c.val == 0x2029 ||
  c.val == 0x202F || c.val == 0x205F || c.val == 0x3000 || c.val == 0xFEFF

/-- JavaScript `String.prototype.trim`: strip leading and trailing whitespace. -/
def trimJs (l : List Char) : List Char :=
  ((l.dropWhile isJsWs).reverse.dropWhile isJsWs).reverse

/-- A match span as pushed onto `highlights` by `createHighlightedSegments`:
`{ start: match.index, end: match.index + match[0].length, color: rule.color }`.
The JS field `end` is a Lean keyword, so it is named `stop` here. -/
structure Span where
  start : Nat
  stop : Nat
  color : String
deriving DecidableEq, Repr

/-- One atom of the regex built from a rule's text.  The source builds the
pattern by escaping every regex metacharacter of `rule.text`
(`replace(/[.*+?^$\x7b\x7d()|[\]\\]/g, '\\$&')`, which makes every non-space
character a literal atom) and then replacing every maximal whitespace run by
`\s+`.  So the pattern is exactly a sequence of literal characters and `\s+`
atoms. -/
inductive Tok where
  | lit (c : Char)
  | ws
deriving DecidableEq, Repr

/-- Tokenizer for the pattern construction: every maximal run of whitespace
characters in the rule text becomes one `Tok.ws` (the `\s+` atom); every other
character becomes a literal atom.  The boolean argument records whether the
previous character was part of a whitespace run. -/
def tokenizeAux : Bool → List Char → List Tok
  | _, [] => []
  | inWs, c :: cs =>
    if isJsWs c then
      if inWs then tokenizeAux true cs else Tok.ws :: tokenizeAux true cs
    else
      Tok.lit c :: tokenizeAux false cs

/-- The token list (pattern) built from a rule's text. -/
def tokenize (l : List Char) : List Tok := tokenizeAux false l

/-- Character comparison under the rule's case flag: the source uses regex
flag `'g'` when `rule.caseSensitive` and `'gi'` otherwise.  Case-insensitive
comparison is modelled by `Char.toLower` (adequate for the ASCII texts the
engine processes). -/
def charMatches (cs : Bool) (a b : Char) : Bool :=
  if cs then a == b else a.toLower == b.toLower

/-- Match the pattern at the head of `ds`; return the number of characters
consumed.  `\s+` is greedy; since a `\s+` atom is always followed by a
non-whitespace literal or by the end of the pattern, greedy matching without
backtracking coincides with the regex engine's behaviour. -/
def matchAt (cs : Bool) : List Tok → List Char → Option Nat
  | [], _ => some 0
  | Tok.lit _ :: _, [] => none
  | Tok.lit c :: ts, d :: ds =>
    if charMatches cs c d then (matchAt cs ts ds).map (· + 1) else none
  | Tok.ws :: ts, ds =>
    let run := ds.takeWhile isJsWs
    if run.length == 0 then none
    else (matchAt cs ts (ds.drop run.length)).map (· + run.length)

/-- Leftmost match of the pattern in `ds` (the document suffix from the current
scan position): the offset of the first position where the pattern matches,
with the match length.  This is what `regex.exec` finds starting from
`lastIndex`. -/
def findMatch (cs : Bool) (toks : List Tok) : List Char → Option (Nat × Nat)
  | [] =>
    match matchAt cs toks [] with
    | some len => some (0, len)
    | none => none
  | d :: ds' =>
    match matchAt cs toks (d :: ds') with
    | some len => some (0, len)
    | none => (findMatch cs toks ds').map (fun r => (r.1 + 1, r.2))

/-- The `while ((match = regex.exec(originalText)) !== null)` loop of
`createHighlightedSegments`: scan from position `pos`, record each match as a
span, continue after the match; on a zero-length match advance one extra
position (`regex.lastIndex++`).  The loop stops when the scan position passes
the end of the document.  `fuel` is a structural bound on the number of
iterations; since every iteration advances `pos` by at least one and the loop
exits as soon as `pos > doc.length`, the initial fuel `doc.length + 1` used by
`ruleSpans` never runs out before the loop would exit. -/
def scanLoop (cs : Bool) (toks : List Tok) (color : String) (doc : List Char) :
    Nat → Nat → List Span
  | 0, _ => []
  | fuel + 1, pos =>
    if pos > doc.length then []
    else
      match findMatch cs toks (doc.drop pos) with
      | none => []
      | some (off, len) =>
        { start := pos + off, stop := pos + off + len, color := color } ::
          scanLoop cs toks color doc fuel
            (if len == 0 then pos + off + len + 1 else pos + off + len)

/-- Variant of `scanLoop` without the zero-length-match guard: the scan always
resumes exactly at the end of the previous match. -/
def scanLoopNoGuard (cs : Bool) (toks : List Tok) (color : String)
    (doc : List Char) : Nat → Nat → List Span
  | 0, _ => []
  | fuel + 1, pos =>
    if pos > doc.length then []
    else
      match findMatch cs toks (doc.drop pos) with
      | none => []
      | some (off, len) =>
        { start := pos + off, stop := pos + off + len, color := color } ::
          scanLoopNoGuard cs toks color doc fuel (pos + off + len)

/-- A highlight rule as consumed by `createHighlightedSegments`. -/
structure Rule where
  text : List Char
  color : String
  caseSensitive : Bool
deriving DecidableEq, Repr

/-- All match spans one rule contributes (its regex scan over the document). -/
def ruleSpans (doc : List Char) (r : Rule) : List Span :=
  scanLoop r.caseSensitive (tokenize r.text) r.color doc (doc.length + 1) 0

/-- The `highlights` list of `createHighlightedSegments`: the concatenation,
in rule order, of each rule's match spans. -/
def allHighlights (doc : List Char) (rules : List Rule) : List Span :=
  (rules.map (ruleSpans doc)).flatten

/-- Insert a span after every already-placed span whose `start` is `≤` its
own: the stable ascending insertion mimicking
`highlights.sort((a, b) => a.start - b.start)` (JS `Array.prototype.sort` is
stable). -/
def insertSpan (s : Span) : List Span → List Span
  | [] => [s]
  | t :: ts => if t.start ≤ s.start then t :: insertSpan s ts else s :: t :: ts

/-- Stable sort of the highlight list by ascending `start`. -/
def sortByStart (l : List Span) : List Span :=
  l.foldl (fun acc s => insertSpan s acc) []

/-- The `for` loop of `mergeOverlappingHighlights`, with `current` seeded from
the first span: on overlap (`next.start < current.end`) commit the
non-overlapping prefix of `current` (if any) and continue with
`{start: next.start, end: max(current.end, next.end), color: next.color}`;
otherwise commit `current` and continue with `next`. -/
def mergeGo (current : Span) : List Span → List Span
  | [] => [current]
  | next :: rest =>
    if next.start < current.stop then
      (if next.start > current.start then
        [{ start := current.start, stop := next.start, color := current.color }]
      else []) ++
      mergeGo { start := next.start, stop := max current.stop next.stop,
                color := next.color } rest
    else
      current :: mergeGo next rest

/-- `mergeOverlappingHighlights`: resolve overlapping spans, the later span in
the (sorted) list taking precedence on the overlap. -/
def mergeOverlappingHighlights : List Span → List Span
  | [] => []
  | h :: t => mergeGo h t

/-- One output segment of `createHighlightedSegments`. -/
structure Segment where
  text : List Char
  highlighted : Bool
  color : Option String
deriving DecidableEq, Repr

/-- The segment-building loop of `createHighlightedSegments`: walk the merged
spans with a cursor (`currentIndex`), emitting a non-highlighted segment for
each gap, a highlighted segment for each span, and a trailing non-highlighted
segment for the remainder of the document. -/
def segmentsFrom (doc : List Char) : Nat → List Span → List Segment
  | cursor, [] =>
    if cursor < doc.length then
      [{ text := doc.drop cursor, highlighted := false, color := none }]
    else []
  | cursor, s :: rest =>
    (if s.start > cursor then
      [{ text := (doc.drop cursor).take (s.start - cursor),
         highlighted := false, color := none }]
    else []) ++
    { text := (doc.drop s.start).take (s.stop - s.start),
      highlighted := true, color := some s.color } ::
    segmentsFrom doc s.stop rest

/-- `createHighlightedSegments(originalText, highlightRules)`. -/
def createHighlightedSegments (doc : List Char) (rules : List Rule) :
    List Segment :=
  if rules.isEmpty then
    [{ text := doc, highlighted := false, color := none }]
  else
    let merged := mergeOverlappingHighlights (sortByStart (allHighlights doc rules))
    let segs := segmentsFrom doc 0 merged
    if segs.isEmpty then
      [{ text := doc, highlighted := false, color := none }]
    else segs

/-- Concatenation of the texts of a segment list. -/
def concatTexts (segs : List Segment) : List Char :=
  (segs.map Segment.text).flatten

/-- The color a span list assigns to a document position (for a merged,
non-overlapping list this is the color of the unique covering span). -/
def mergedColorAt (spans : List Span) (p : Nat) : Option String :=
  (spans.find? (fun s => s.start ≤ p && p < s.stop)).map Span.color

/-- `covered spans p` holds when some span of the list covers position `p`. -/
def covered (spans : List Span) (p : Nat) : Prop :=
  ∃ s ∈ spans, s.start ≤ p ∧ p < s.stop

instance (spans : List Span) (p : Nat) : Decidable (covered spans p) :=
  inferInstanceAs (Decidable (∃ s ∈ spans, _ ∧ _))

/-! ## Rule validation (`validateHighlightRules`) -/

/-- `Object.values(HIGHLIGHT_COLORS)`: the named color tokens. -/
def HIGHLIGHT_COLORS : List String := ["red", "green", "yellow"]

/-- A rule as seen by `validateHighlightRules`.  `caseSensitive` is `none`
when the JS field is `undefined`.  (The JS `typeof rule.caseSensitive !==
'boolean'` and `typeof rule.text !== 'string'` checks cannot fire in this
typed model; the properties under study only concern the text and color
checks.) -/
structure VRule where
  text : List Char
  color : String
  caseSensitive : Option Bool
deriving DecidableEq, Repr

/-- The `{ isValid, errors }` result of `validateHighlightRules`. -/
structure ValidationResult where
  isValid : Bool
  errors : List String
deriving DecidableEq, Repr

/-- The error messages contributed by the rule at (0-based) index `idx`:
`!rule.text || rule.text.trim() === ''` and
`!rule.color || !validColors.includes(rule.color)`. -/
def ruleErrors (idx : Nat) (r : VRule) : List String :=
  (if r.text = [] ∨ trimJs r.text = [] then
    [s!"Rule {idx + 1}: Text is required and must be a non-empty string"]
  else []) ++
  (if r.color = "" ∨ ¬ HIGHLIGHT_COLORS.contains r.color then
    [s!"Rule {idx + 1}: Color must be one of: " ++
      String.intercalate ", " HIGHLIGHT_COLORS]
  else [])

/-- `validateHighlightRules(rules)` for an array argument (the
`!Array.isArray(rules)` early return is outside this typed model). -/
def validateHighlightRules (rules : List VRule) : ValidationResult :=
  let errors := (rules.enum.map (fun p => ruleErrors p.1 p.2)).flatten
  { isValid := errors.isEmpty, errors := errors }

/-! ## Layout reconstruction (`extractTextFromPDF`) -/

/-- One positioned text item of a PDF page, as used by `extractTextFromPDF`:
`{ text: item.str, x: transform[4], y: transform[5], width: item.width }`.
Coordinates are modelled as integers (exact for the integral coordinates all
the stated properties use). -/
structure Item where
  text : List Char
  x : Int
  y : Int
  width : Int
deriving DecidableEq, Repr

/-- `Math.round(y / 2) * 2`, the quantized line key.  JS `Math.round` rounds
halves toward positive infinity, so `Math.round(y / 2) = ⌊(y + 1) / 2⌋`. -/
def lineKey (y : Int) : Int := ((y + 1).fdiv 2) * 2

/-- The items of a page that take part in reconstruction (the
`if (!item.str || !item.transform) return` filter skips items with empty
text). -/
def pageItems (page : List Item) : List Item :=
  page.filter (fun i => ¬ i.text.isEmpty)

/-- Descending insertion of a key into an already-descending key list
(mimicking `sort((a, b) => b[0] - a[0])`; the keys are distinct). -/
def insertKeyDesc (k : Int) : List Int → List Int
  | [] => [k]
  | t :: ts => if t ≥ k then t :: insertKeyDesc k ts else k :: t :: ts

/-- The distinct line keys of a page, sorted descending (top of page first). -/
def sortedKeys (page : List Item) : List Int :=
  (((pageItems page).map (fun i => lineKey i.y)).dedup).foldl
    (fun acc k => insertKeyDesc k acc) []

/-- The items of a page on the line with key `k`, in insertion order. -/
def itemsForKey (page : List Item) (k : Int) : List Item :=
  (pageItems page).filter (fun i => lineKey i.y == k)

/-- Stable ascending insertion by `x` (mimicking
`items.sort((a, b) => a.x - b.x)`). -/
def insertByX (it : Item) : List Item → List Item
  | [] => [it]
  | t :: ts => if t.x ≤ it.x then t :: insertByX it ts else it :: t :: ts

/-- Stable sort of a line's items by ascending `x`. -/
def sortByX (l : List Item) : List Item :=
  l.foldl (fun acc i => insertByX i acc) []

/-- The line-building loop: the first item is prefixed with
`floor(x / 6)` spaces of indentation (when positive); every later item is
separated from the previous one according to
`gap = item.x - (previous.x + previous.width)`: more than 5 yields
`max(1, floor(gap / 5))` spaces, more than 1 yields a single space, otherwise
nothing.  The `Option Int` argument is `lastXEnd`. -/
def buildLineAux : Option Int → List Item → List Char
  | _, [] => []
  | lastXEnd, i :: rest =>
    (match lastXEnd with
     | none =>
       let ind := i.x.fdiv 6
       if ind > 0 then List.replicate ind.toNat ' ' else []
     | some lx =>
       let gap := i.x - lx
       if gap > 5 then List.replicate (max 1 (gap.fdiv 5)).toNat ' '
       else if gap > 1 then [' ']
       else []) ++
    i.text ++ buildLineAux (some (i.x + i.width)) rest

/-- The text of one reconstructed line. -/
def buildLine (items : List Item) : List Char := buildLineAux none items

/-- The text of one page: its lines, top to bottom, each terminated by a
newline (`pageText += lineText + '\n'`). -/
def pageText (page : List Item) : List Char :=
  ((sortedKeys page).map
    (fun k => buildLine (sortByX (itemsForKey page k)) ++ ['\n'])).flatten

/-- The page-joining loop: every page but the last contributes
`pageText + '\n'`; the last contributes just its text. -/
def joinPages : List (List Item) → List Char
  | [] => []
  | [p] => pageText p
  | p :: q :: ps => pageText p ++ '\n' :: joinPages (q :: ps)

/-- `extractTextFromPDF`: the trimmed concatenation of the pages. -/
def extractTextFromPDF (pages : List (List Item)) : List Char :=
  trimJs (joinPages pages)

/-- The separator the specification prescribes between two consecutive items
of a line, as a function of the gap. -/
def gapSep (gap : Int) : List Char :=
  if gap > 5 then List.replicate (max 1 (gap.fdiv 5)).toNat ' '
  else if gap > 1 then [' ']
  else []

/-! ## Whitespace-tolerant matching -/

/-- `WsEquiv r d` says the document snippet `d` is obtained from the rule text
`r` by replacing each maximal run of whitespace by an arbitrary nonempty run
of whitespace, keeping every other character unchanged.  The
`∀ c ∈ r.head?, isJsWs c = false` side condition of the `ws` constructor makes
the replaced runs maximal. -/
inductive WsEquiv : List Char → List Char → Prop where
  | nil : WsEquiv [] []
  | lit {c : Char} {r d : List Char} :
      isJsWs c = false → WsEquiv r d → WsEquiv (c :: r) (c :: d)
  | ws {w1 w2 r d : List Char} :
      w1 ≠ [] → w2 ≠ [] →
      (∀ c ∈ w1, isJsWs c = true) → (∀ c ∈ w2, isJsWs c = true) →
      (∀ c ∈ r.head?, isJsWs c = false) →
      WsEquiv r d → WsEquiv (w1 ++ r) (w2 ++ d)

/-! ## Helper lemmas: the stable sort -/

theorem mem_insertSpan (x s : Span) (l : List Span) :
    x ∈ insertSpan s l ↔ x = s ∨ x ∈ l := by
  induction l with
  | nil => simp [insertSpan]
  | cons t ts ih =>
    simp only [insertSpan]
    split
    · simp only [List.mem_cons, ih]
      tauto
    · simp only [List.mem_cons]

theorem pairwise_insertSpan (s : Span) (l : List Span)
    (h : l.Pairwise (fun a b => a.start ≤ b.start)) :
    (insertSpan s l).Pairwise (fun a b => a.start ≤ b.start) := by
  induction l with
  | nil => simp [insertSpan]
  | cons t ts ih =>
    rw [List.pairwise_cons] at h
    simp only [insertSpan]
    split
    · rename_i hts
      rw [List.pairwise_cons]
      refine ⟨fun y hy => ?_, ih h.2⟩
      rcases (mem_insertSpan y s ts).1 hy with rfl | hy
      · exact hts
      · exact h.1 y hy
    · rename_i hts
      rw [List.pairwise_cons]
      refine ⟨fun y hy => ?_, List.pairwise_cons.2 ⟨h.1, h.2⟩⟩
      rcases List.mem_cons.1 hy with rfl | hy
      · omega
      · have := h.1 y hy
        omega

theorem mem_sortAux (x : Span) : ∀ (l acc : List Span),
    (x ∈ l.foldl (fun a s => insertSpan s a) acc) ↔ x ∈ l ∨ x ∈ acc
  | [], acc => by simp
  | s :: ss, acc => by
    rw [List.foldl_cons, mem_sortAux x ss (insertSpan s acc), mem_insertSpan]
    simp only [List.mem_cons]
    tauto

theorem pairwise_sortAux : ∀ (l acc : List Span),
    acc.Pairwise (fun a b => a.start ≤ b.start) →
    (l.foldl (fun a s => insertSpan s a) acc).Pairwise
      (fun a b => a.start ≤ b.start)
  | [], _, h => h
  | s :: ss, acc, h => pairwise_sortAux ss _ (pairwise_insertSpan s acc h)

theorem mem_sortByStart (x : Span) (l : List Span) :
    x ∈ sortByStart l ↔ x ∈ l := by
  unfold sortByStart
  rw [mem_sortAux]
  simp

theorem pairwise_sortByStart (l : List Span) :
    (sortByStart l).Pairwise (fun a b => a.start ≤ b.start) :=
  pairwise_sortAux l [] (by simp)

/-! ## Helper lemmas: the merge -/

theorem mergeGo_spec (rest : List Span) : ∀ (c : Span),
    rest.Pairwise (fun a b => a.start ≤ b.start) →
    (∀ s ∈ rest, c.start ≤ s.start) →
    (∀ s ∈ rest, s.start ≤ s.stop) →
    c.start ≤ c.stop →
    (∀ s ∈ mergeGo c rest, c.start ≤ s.start ∧ s.start ≤ s.stop) ∧
      (mergeGo c rest).Pairwise (fun a b => a.stop ≤ b.start) := by
  induction rest with
  | nil =>
    intro c _ _ _ hc
    refine ⟨fun s hs => ?_, by simp [mergeGo]⟩
    simp only [mergeGo, List.mem_singleton] at hs
    subst hs
    exact ⟨le_refl _, hc⟩
  | cons next rest ih =>
    intro c hpw hge hse hc
    rw [List.pairwise_cons] at hpw
    have hnge : c.start ≤ next.start := hge next (by simp)
    have hnse : next.start ≤ next.stop := hse next (by simp)
    simp only [mergeGo]
    split
    · rename_i hov
      have ih' := ih ⟨next.start, max c.stop next.stop, next.color⟩ hpw.2
        (fun s hs => hpw.1 s hs)
        (fun s hs => hse s (List.mem_cons_of_mem _ hs))
        (show next.start ≤ max c.stop next.stop by omega)
      obtain ⟨ihA, ihB⟩ := ih'
      split
      · rename_i hpre
        simp only [List.singleton_append]
        constructor
        · intro s hs
          rcases List.mem_cons.1 hs with rfl | hs'
          · exact ⟨le_refl _, le_of_lt hpre⟩
          · have h1 : next.start ≤ s.start := (ihA s hs').1
            exact ⟨le_trans hnge h1, (ihA s hs').2⟩
        · rw [List.pairwise_cons]
          exact ⟨fun y hy => (ihA y hy).1, ihB⟩
      · simp only [List.nil_append]
        refine ⟨fun s hs => ?_, ihB⟩
        have h1 : next.start ≤ s.start := (ihA s hs).1
        exact ⟨le_trans hnge h1, (ihA s hs).2⟩
    · rename_i hov
      have ih' := ih next hpw.2 hpw.1
        (fun s hs => hse s (List.mem_cons_of_mem _ hs)) hnse
      obtain ⟨ihA, ihB⟩ := ih'
      constructor
      · intro s hs
        rcases List.mem_cons.1 hs with rfl | hs'
        · exact ⟨le_refl _, hc⟩
        · have h1 : next.start ≤ s.start := (ihA s hs').1
          exact ⟨le_trans hnge h1, (ihA s hs').2⟩
      · rw [List.pairwise_cons]
        refine ⟨fun y hy => ?_, ihB⟩
        have h1 : next.start ≤ y.start := (ihA y hy).1
        omega

theorem merge_invariants (spans : List Span)
    (h1 : spans.Pairwise (fun a b => a.start ≤ b.start))
    (h2 : ∀ s ∈ spans, s.start ≤ s.stop) :
    (∀ s ∈ mergeOverlappingHighlights spans, s.start ≤ s.stop) ∧
      (mergeOverlappingHighlights spans).Pairwise
        (fun a b => a.stop ≤ b.start) := by
  cases spans with
  | nil => simp [mergeOverlappingHighlights]
  | cons a t =>
    rw [List.pairwise_cons] at h1
    have h := mergeGo_spec t a h1.2 h1.1
      (fun s hs => h2 s (List.mem_cons_of_mem _ hs)) (h2 a (by simp))
    exact ⟨fun s hs => (h.1 s hs).2, h.2⟩

/-! ## Helper lemmas: coverage of the merge -/

theorem covered_nil (p : Nat) : ¬ covered [] p := by
  simp [covered]

theorem covered_cons {s : Span} {l : List Span} {p : Nat} :
    covered (s :: l) p ↔ (s.start ≤ p ∧ p < s.stop) ∨ covered l p := by
  simp [covered]

theorem covered_append {l1 l2 : List Span} {p : Nat} :
    covered (l1 ++ l2) p ↔ covered l1 p ∨ covered l2 p := by
  constructor
  · rintro ⟨s, hs, h⟩
    rcases List.mem_append.1 hs with hs | hs
    · exact Or.inl ⟨s, hs, h⟩
    · exact Or.inr ⟨s, hs, h⟩
  · rintro (⟨s, hs, h⟩ | ⟨s, hs, h⟩)
    · exact ⟨s, List.mem_append.2 (Or.inl hs), h⟩
    · exact ⟨s, List.mem_append.2 (Or.inr hs), h⟩

theorem mergeGo_cover (rest : List Span) : ∀ (c : Span),
    rest.Pairwise (fun a b => a.start ≤ b.start) →
    (∀ s ∈ rest, c.start ≤ s.start) →
    ∀ p, covered (mergeGo c rest) p ↔
      ((c.start ≤ p ∧ p < c.stop) ∨ covered rest p) := by
  induction rest with
  | nil =>
    intro c _ _ p
    simp [mergeGo, covered_cons, covered_nil]
  | cons next rest ih =>
    intro c hpw hge p
    rw [List.pairwise_cons] at hpw
    have hnge : c.start ≤ next.start := hge next (by simp)
    simp only [mergeGo]
    split
    · rename_i hov
      have ihc : covered (mergeGo ⟨next.start, max c.stop next.stop,
          next.color⟩ rest) p ↔
          ((next.start ≤ p ∧ p < max c.stop next.stop) ∨ covered rest p) :=
        ih ⟨next.start, max c.stop next.stop, next.color⟩ hpw.2 hpw.1 p
      split
      · rename_i hpre
        rw [List.singleton_append, covered_cons, ihc, covered_cons]
        show ((c.start ≤ p ∧ p < next.start) ∨
            ((next.start ≤ p ∧ p < max c.stop next.stop) ∨ covered rest p)) ↔
          ((c.start ≤ p ∧ p < c.stop) ∨
            ((next.start ≤ p ∧ p < next.stop) ∨ covered rest p))
        by_cases hX : covered rest p
        · simp [hX]
        · simp only [hX, or_false]
          omega
      · rename_i hpre
        rw [List.nil_append, ihc, covered_cons]
        by_cases hX : covered rest p
        · simp [hX]
        · simp only [hX, or_false]
          omega
    · rename_i hov
      have ihc := ih next hpw.2 hpw.1 p
      rw [covered_cons, ihc, covered_cons]

theorem merge_cover (spans : List Span)
    (h1 : spans.Pairwise (fun a b => a.start ≤ b.start)) :
    ∀ p, covered (mergeOverlappingHighlights spans) p ↔ covered spans p := by
  cases spans with
  | nil => intro p; rfl
  | cons a t =>
    intro p
    rw [List.pairwise_cons] at h1
    rw [show mergeOverlappingHighlights (a :: t) = mergeGo a t from rfl,
      mergeGo_cover t a h1.2 h1.1 p, covered_cons]

/-! ## Helper lemmas: the matcher and the scan loop -/

theorem matchAt_le (cs : Bool) : ∀ (toks : List Tok) (ds : List Char)
    (len : Nat), matchAt cs toks ds = some len → len ≤ ds.length := by
  intro toks
  induction toks with
  | nil =>
    intro ds len h
    simp only [matchAt, Option.some.injEq] at h
    omega
  | cons t ts ih =>
    intro ds len h
    cases t with
    | lit c =>
      cases ds with
      | nil => simp [matchAt] at h
      | cons d ds' =>
        simp only [matchAt] at h
        split at h
        · cases hm : matchAt cs ts ds' with
          | none => rw [hm] at h; simp at h
          | some l =>
            rw [hm] at h
            simp only [Option.map_some', Option.some.injEq] at h
            have := ih ds' l hm
            simp only [List.length_cons]
            omega
        · simp at h
    | ws =>
      simp only [matchAt] at h
      split at h
      · simp at h
      · cases hm : matchAt cs ts (ds.drop (ds.takeWhile isJsWs).length) with
        | none => rw [hm] at h; simp at h
        | some l =>
          rw [hm] at h
          simp only [Option.map_some', Option.some.injEq] at h
          have h2 := ih _ l hm
          have h3 : (ds.takeWhile isJsWs).length ≤ ds.length :=
            (List.takeWhile_prefix _).length_le
          rw [List.length_drop] at h2
          omega

theorem matchAt_pos (cs : Bool) (t : Tok) (ts : List Tok) (ds : List Char)
    (len : Nat) (h : matchAt cs (t :: ts) ds = some len) : 0 < len := by
  cases t with
  | lit c =>
    cases ds with
    | nil => simp [matchAt] at h
    | cons d ds' =>
      simp only [matchAt] at h
      split at h
      · cases hm : matchAt cs ts ds' with
        | none => rw [hm] at h; simp at h
        | some l =>
          rw [hm] at h
          simp only [Option.map_some', Option.some.injEq] at h
          omega
      · simp at h
  | ws =>
    simp only [matchAt] at h
    split at h
    · simp at h
    · rename_i hrun
      cases hm : matchAt cs ts (ds.drop (ds.takeWhile isJsWs).length) with
      | none => rw [hm] at h; simp at h
      | some l =>
        rw [hm] at h
        simp only [Option.map_some', Option.some.injEq] at h
        simp only [beq_iff_eq] at hrun
        omega

theorem findMatch_bound (cs : Bool) (toks : List Tok) : ∀ (ds : List Char)
    (off len : Nat), findMatch cs toks ds = some (off, len) →
    off + len ≤ ds.length := by
  intro ds
  induction ds with
  | nil =>
    intro off len h
    simp only [findMatch] at h
    split at h
    · rename_i l hm
      simp only [Option.some.injEq, Prod.mk.injEq] at h
      have := matchAt_le cs toks [] l hm
      simp at this
      omega
    · simp at h
  | cons d ds' ih =>
    intro off len h
    simp only [findMatch] at h
    split at h
    · rename_i l hm
      simp only [Option.some.injEq, Prod.mk.injEq] at h
      have := matchAt_le cs toks (d :: ds') l hm
      simp only [List.length_cons] at *
      omega
    · cases hf : findMatch cs toks ds' with
      | none => rw [hf] at h; simp at h
      | some r =>
        rw [hf] at h
        simp only [Option.map_some', Option.some.injEq, Prod.mk.injEq] at h
        have := ih r.1 r.2 (by rw [hf])
        simp only [List.length_cons]
        omega

theorem findMatch_pos (cs : Bool) (t : Tok) (ts : List Tok) : ∀ (ds : List Char)
    (off len : Nat), findMatch cs (t :: ts) ds = some (off, len) → 0 < len := by
  intro ds
  induction ds with
  | nil =>
    intro off len h
    simp only [findMatch] at h
    split at h
    · rename_i l hm
      simp only [Option.some.injEq, Prod.mk.injEq] at h
      have := matchAt_pos cs t ts [] l hm
      omega
    · simp at h
  | cons d ds' ih =>
    intro off len h
    simp only [findMatch] at h
    split at h
    · rename_i l hm
      simp only [Option.some.injEq, Prod.mk.injEq] at h
      have := matchAt_pos cs t ts (d :: ds') l hm
      omega
    · cases hf : findMatch cs (t :: ts) ds' with
      | none => rw [hf] at h; simp at h
      | some r =>
        rw [hf] at h
        simp only [Option.map_some', Option.some.injEq, Prod.mk.injEq] at h
        have := ih r.1 r.2 (by rw [hf])
        omega

theorem scanLoop_bounds (cs : Bool) (toks : List Tok) (color : String)
    (doc : List Char) : ∀ (fuel pos : Nat) (s : Span),
    s ∈ scanLoop cs toks color doc fuel pos →
    pos ≤ s.start ∧ s.start ≤ s.stop ∧ s.stop ≤ doc.length := by
  intro fuel
  induction fuel with
  | zero => intro pos s h; simp [scanLoop] at h
  | succ fuel ih =>
    intro pos s h
    simp only [scanLoop] at h
    split at h
    · simp at h
    · rename_i hpos
      split at h
      · simp at h
      · rename_i off len hfm
        have hb := findMatch_bound cs toks (doc.drop pos) off len hfm
        rw [List.length_drop] at hb
        rcases List.mem_cons.1 h with rfl | h'
        · exact ⟨show pos ≤ pos + off by omega,
            show pos + off ≤ pos + off + len by omega,
            show pos + off + len ≤ doc.length by omega⟩
        · have := ih _ s h'
          constructor
          · have hle : pos ≤ (if len == 0 then pos + off + len + 1
                else pos + off + len) := by
              split <;> omega
            omega
          · exact this.2



/-! ## Helper lemmas: segmentation -/

theorem concatTexts_nil : concatTexts [] = [] := rfl

theorem concatTexts_cons (x : Segment) (l : List Segment) :
    concatTexts (x :: l) = x.text ++ concatTexts l := by
  simp [concatTexts]

theorem concatTexts_append (a b : List Segment) :
    concatTexts (a ++ b) = concatTexts a ++ concatTexts b := by
  simp [concatTexts]

theorem drop_take_drop (l : List Char) (a b : Nat) (hab : a ≤ b) :
    (l.drop a).take (b - a) ++ l.drop b = l.drop a := by
  have h1 : l.drop b = (l.drop a).drop (b - a) := by
    rw [List.drop_drop]
    congr 1
    omega
  rw [h1, List.take_append_drop]

theorem segmentsFrom_concat (doc : List Char) : ∀ (spans : List Span)
    (cursor : Nat),
    spans.Pairwise (fun a b => a.stop ≤ b.start) →
    (∀ s ∈ spans, s.start ≤ s.stop) →
    (∀ s ∈ spans, cursor ≤ s.start) →
    concatTexts (segmentsFrom doc cursor spans) = doc.drop cursor := by
  intro spans
  induction spans with
  | nil =>
    intro cursor _ _ _
    simp only [segmentsFrom]
    split
    · simp [concatTexts]
    · rename_i hge
      rw [concatTexts_nil]
      rw [eq_comm, List.drop_eq_nil_iff]
      omega
  | cons s rest ih =>
    intro cursor hpw hse hcur
    rw [List.pairwise_cons] at hpw
    have hs1 : s.start ≤ s.stop := hse s (by simp)
    have hs0 : cursor ≤ s.start := hcur s (by simp)
    have ihr := ih s.stop hpw.2
      (fun t ht => hse t (List.mem_cons_of_mem _ ht))
      (fun t ht => hpw.1 t ht)
    simp only [segmentsFrom, concatTexts_append, concatTexts_cons,
      concatTexts_nil, ihr]
    split
    · rename_i hgap
      simp only [concatTexts_cons, concatTexts_nil, List.append_nil]
      rw [drop_take_drop doc s.start s.stop hs1]
      exact drop_take_drop doc cursor s.start (le_of_lt hgap)
    · rename_i hgap
      simp only [concatTexts_nil, List.nil_append]
      rw [drop_take_drop doc s.start s.stop hs1]
      have heq : s.start = cursor := by omega
      rw [heq]

/-! ## Helper lemmas: bounds of the collected highlights -/

theorem ruleSpans_bounds (doc : List Char) (r : Rule) (s : Span)
    (h : s ∈ ruleSpans doc r) : s.start ≤ s.stop ∧ s.stop ≤ doc.length := by
  have := scanLoop_bounds r.caseSensitive (tokenize r.text) r.color doc
    (doc.length + 1) 0 s h
  exact this.2

theorem allHighlights_bounds (doc : List Char) (rules : List Rule) (s : Span)
    (h : s ∈ allHighlights doc rules) :
    s.start ≤ s.stop ∧ s.stop ≤ doc.length := by
  rw [allHighlights, List.mem_flatten] at h
  obtain ⟨l, hl, hs⟩ := h
  rw [List.mem_map] at hl
  obtain ⟨r, _, rfl⟩ := hl
  exact ruleSpans_bounds doc r s hs
/-! ## Helper lemmas: the tokenizer and whitespace tolerance -/

theorem tokenize_cons_ne_nil (c : Char) (cs : List Char) :
    tokenize (c :: cs) ≠ [] := by
  unfold tokenize tokenizeAux
  split <;> simp

theorem tokenizeAux_true_ws_append (w : List Char)
    (hw : ∀ c ∈ w, isJsWs c = true) :
    ∀ r, tokenizeAux true (w ++ r) = tokenizeAux true r := by
  induction w with
  | nil => intro r; rfl
  | cons c w ih =>
    intro r
    simp only [List.cons_append, tokenizeAux, hw c (by simp), if_true]
    exact ih (fun c hc => hw c (by simp [hc])) r

theorem tokenizeAux_true_head_nonws (r : List Char)
    (hr : ∀ c ∈ r.head?, isJsWs c = false) :
    tokenizeAux true r = tokenizeAux false r := by
  cases r with
  | nil => rfl
  | cons c cs =>
    have hc : isJsWs c = false := hr c (by simp)
    simp [tokenizeAux, hc]

theorem tokenize_ws_append (w r : List Char) (hw1 : w ≠ [])
    (hw : ∀ c ∈ w, isJsWs c = true)
    (hr : ∀ c ∈ r.head?, isJsWs c = false) :
    tokenize (w ++ r) = Tok.ws :: tokenize r := by
  cases w with
  | nil => exact absurd rfl hw1
  | cons c w' =>
    have hc : isJsWs c = true := hw c (by simp)
    show tokenizeAux false (c :: (w' ++ r)) = Tok.ws :: tokenizeAux false r
    simp only [tokenizeAux, hc, if_true, Bool.false_eq_true, if_false]
    rw [tokenizeAux_true_ws_append w' (fun x hx => hw x (by simp [hx])) r,
      tokenizeAux_true_head_nonws r hr]

theorem takeWhile_ws_append (w d : List Char)
    (hw : ∀ c ∈ w, isJsWs c = true)
    (hd : ∀ c ∈ d.head?, isJsWs c = false) :
    (w ++ d).takeWhile isJsWs = w := by
  induction w with
  | nil =>
    cases d with
    | nil => rfl
    | cons c cs =>
      have hc : isJsWs c = false := hd c (by simp)
      simp [List.takeWhile_cons, hc]
  | cons c w ih =>
    have hc : isJsWs c = true := hw c (by simp)
    simp only [List.cons_append, List.takeWhile_cons, hc, if_true]
    rw [ih (fun x hx => hw x (by simp [hx]))]

theorem wsEquiv_head_nonws {r d : List Char} (h : WsEquiv r d)
    (hr : ∀ c ∈ r.head?, isJsWs c = false) :
    ∀ c ∈ d.head?, isJsWs c = false := by
  cases h with
  | nil => intro c hc; simp at hc
  | lit hc _ =>
    intro c' hc'
    simp only [List.head?_cons, Option.mem_def, Option.some.injEq] at hc'
    subst hc'
    exact hc
  | @ws w1 w2 r₀ d₀ hw1 hw2 hww1 hww2 hhead _ =>
    cases w1 with
    | nil => exact absurd rfl hw1
    | cons x w1' =>
      have h1 : isJsWs x = true := hww1 x (by simp)
      have h2 : isJsWs x = false := hr x (by simp)
      rw [h1] at h2
      exact absurd h2 (by simp)

theorem wsEquiv_matchAt (cs : Bool) {r d : List Char} (h : WsEquiv r d) :
    matchAt cs (tokenize r) d = some d.length := by
  induction h with
  | nil => rfl
  | @lit c r₀ d₀ hc hrd ih =>
    have ht : tokenize (c :: r₀) = Tok.lit c :: tokenize r₀ := by
      simp [tokenize, tokenizeAux, hc]
    rw [ht]
    have hcm : charMatches cs c c = true := by
      cases cs <;> simp [charMatches]
    simp only [matchAt, hcm, if_true, ih, Option.map_some', List.length_cons]
  | @ws w1 w2 r₀ d₀ hw1 hw2 hww1 hww2 hhead hrd ih =>
    rw [tokenize_ws_append w1 r₀ hw1 hww1 hhead]
    have hd₀ : ∀ c ∈ d₀.head?, isJsWs c = false := wsEquiv_head_nonws hrd hhead
    simp only [matchAt]
    rw [takeWhile_ws_append w2 d₀ hww2 hd₀]
    rw [if_neg (by simp [List.length_eq_zero] ; exact hw2)]
    rw [List.drop_left, ih]
    simp [List.length_append, Nat.add_comm]

/-! ## Helper lemmas: trim and positive-length matches -/

theorem trimJs_ne_nil_imp (l : List Char) (h : trimJs l ≠ []) : l ≠ [] := by
  intro hl
  subst hl
  exact h rfl

theorem scanLoop_pos (cs : Bool) (t : Tok) (ts : List Tok) (color : String)
    (doc : List Char) : ∀ (fuel pos : Nat) (s : Span),
    s ∈ scanLoop cs (t :: ts) color doc fuel pos → s.start < s.stop := by
  intro fuel
  induction fuel with
  | zero => intro pos s h; simp [scanLoop] at h
  | succ fuel ih =>
    intro pos s h
    simp only [scanLoop] at h
    split at h
    · simp at h
    · split at h
      · simp at h
      · rename_i off len hfm
        have hp := findMatch_pos cs t ts (doc.drop pos) off len hfm
        rcases List.mem_cons.1 h with rfl | h'
        · show pos + off < pos + off + len
          omega
        · exact ih _ s h'

theorem scanLoop_eq_noGuard (cs : Bool) (t : Tok) (ts : List Tok)
    (color : String) (doc : List Char) : ∀ (fuel pos : Nat),
    scanLoop cs (t :: ts) color doc fuel pos =
      scanLoopNoGuard cs (t :: ts) color doc fuel pos := by
  intro fuel
  induction fuel with
  | zero => intro pos; rfl
  | succ fuel ih =>
    intro pos
    simp only [scanLoop, scanLoopNoGuard]
    split
    · rfl
    · cases hfm : findMatch cs (t :: ts) (doc.drop pos) with
      | none => simp only [hfm]
      | some r =>
        obtain ⟨off, len⟩ := r
        have hp := findMatch_pos cs t ts (doc.drop pos) off len hfm
        simp only [hfm]
        rw [if_neg (show ¬ ((len == 0) = true) by simp; omega)]
        rw [ih]

/-! ## Helper lemmas: page joining -/

theorem joinPages_append (p : List Item) : ∀ (ps : List (List Item)),
    joinPages (ps ++ [p]) =
      (ps.map (fun q => pageText q ++ ['\n'])).flatten ++ pageText p := by
  intro ps
  induction ps with
  | nil => simp [joinPages]
  | cons a ps ih =>
    cases ps with
    | nil => simp [joinPages]
    | cons b ps' =>
      simp only [List.cons_append] at *
      show pageText a ++ '\n' :: joinPages (b :: (ps' ++ [p])) = _
      rw [ih]
      simp

/-! ## Claim theorems -/

/-- Claim C1 (lossless partition): for every document string and every list of
highlight rules, concatenating in order the text fields of all segments
returned by `createHighlightedSegments` yields exactly the original document
string. -/
theorem C1_lossless_partition (doc : List Char) (rules : List Rule) :
    concatTexts (createHighlightedSegments doc rules) = doc := by
  simp only [createHighlightedSegments]
  split
  · simp [concatTexts]
  · split
    · simp [concatTexts]
    · have h1 := pairwise_sortByStart (allHighlights doc rules)
      have h2 : ∀ s ∈ sortByStart (allHighlights doc rules),
          s.start ≤ s.stop := fun s hs =>
        (allHighlights_bounds doc rules s ((mem_sortByStart s _).1 hs)).1
      have minv := merge_invariants _ h1 h2
      rw [segmentsFrom_concat doc _ 0 minv.2 minv.1 (fun s _ => Nat.zero_le _)]
      exact List.drop_zero doc

/-- Claim C3 (non-overlap invariant of the merge output): for every input list
of spans sorted by non-decreasing start, each with start ≤ end, the output of
`mergeOverlappingHighlights` is sorted by start and pairwise non-overlapping
(the end of each earlier span is at most the start of each later span). -/
theorem C3_merge_nonoverlap (spans : List Span)
    (h1 : spans.Pairwise (fun a b => a.start ≤ b.start))
    (h2 : ∀ s ∈ spans, s.start ≤ s.stop) :
    (mergeOverlappingHighlights spans).Pairwise (fun a b => a.stop ≤ b.start) ∧
      (mergeOverlappingHighlights spans).Pairwise
        (fun a b => a.start ≤ b.start) := by
  have h := merge_invariants spans h1 h2
  refine ⟨h.2, h.2.imp_of_mem ?_⟩
  intro a b ha _ hr
  exact le_trans (h.1 a ha) hr

/-- Witness for C3 at a concrete overlapping pair. -/
theorem C3_merge_nonoverlap_witness :
    (mergeOverlappingHighlights [⟨0, 5, "red"⟩, ⟨3, 7, "green"⟩]).Pairwise
        (fun a b => a.stop ≤ b.start) ∧
      (mergeOverlappingHighlights [⟨0, 5, "red"⟩, ⟨3, 7, "green"⟩]).Pairwise
        (fun a b => a.start ≤ b.start) :=
  C3_merge_nonoverlap [⟨0, 5, "red"⟩, ⟨3, 7, "green"⟩] (by decide)
    (by decide)

/-- Claim C10 (coverage preservation of the merge): for every input list of
spans sorted by non-decreasing start, each with start ≤ end, a position is
covered by the output of `mergeOverlappingHighlights` exactly when it is
covered by some input span. -/
theorem C10_merge_coverage (spans : List Span)
    (h1 : spans.Pairwise (fun a b => a.start ≤ b.start))
    (_h2 : ∀ s ∈ spans, s.start ≤ s.stop) (p : Nat) :
    covered (mergeOverlappingHighlights spans) p ↔ covered spans p :=
  merge_cover spans h1 p

/-- Witness for C10 at a concrete overlapping pair and position. -/
theorem C10_merge_coverage_witness :
    covered (mergeOverlappingHighlights [⟨0, 5, "red"⟩, ⟨3, 9, "green"⟩]) 4 ↔
      covered [⟨0, 5, "red"⟩, ⟨3, 9, "green"⟩] 4 :=
  C10_merge_coverage [⟨0, 5, "red"⟩, ⟨3, 9, "green"⟩] (by decide) (by decide) 4

/-- Claim C2 counterexample: the rule later in the input order (`"abcde"`,
green) overlaps the earlier rule (`"cdefghij"`, red) on positions 2–4 of the
document, its span starting earlier; the claim says the overlap is emitted
green, but the merge emits red there (the span later in sorted-by-start order
wins, not the span later in input order). -/
theorem C2_precedence_counterexample :
    ruleSpans ("abcdefghij".toList) ⟨"cdefghij".toList, "red", true⟩ =
        [⟨2, 10, "red"⟩] ∧
      ruleSpans ("abcdefghij".toList) ⟨"abcde".toList, "green", true⟩ =
        [⟨0, 5, "green"⟩] ∧
      mergedColorAt (mergeOverlappingHighlights (sortByStart (allHighlights
        ("abcdefghij".toList)
        [⟨"cdefghij".toList, "red", true⟩,
          ⟨"abcde".toList, "green", true⟩]))) 3 = some "red" ∧
      some "red" ≠ some "green" :=
  ⟨by decide, by decide, by decide, by decide⟩

/-- Claim C2 as amended: when two overlapping spans reach the merge in
sorted-by-start order, every position of the overlap region receives the color
of the span that comes later in that sorted order (for spans of two rules this
is the later-input rule exactly when its span starts at or after the earlier
rule's span; the stable sort preserves input order only between equal
starts). -/
theorem C2_precedence_amended (a b : Span) (_hab : a.start ≤ b.start)
    (hov : b.start < a.stop) (p : Nat) (hp1 : b.start ≤ p)
    (hp2 : p < min a.stop b.stop) :
    mergedColorAt (mergeOverlappingHighlights [a, b]) p = some b.color := by
  show mergedColorAt (mergeGo a [b]) p = some b.color
  simp only [mergeGo]
  rw [if_pos hov]
  split
  · rename_i hpre
    have h1 : ¬ (p < b.start) := by omega
    have h2 : p < max a.stop b.stop := by omega
    simp [mergedColorAt, h1, h2, hp1]
  · rename_i hpre
    have h2 : p < max a.stop b.stop := by omega
    simp [mergedColorAt, h2, hp1]

/-- Witness for the amended C2 at a concrete overlapping pair. -/
theorem C2_precedence_amended_witness :
    mergedColorAt (mergeOverlappingHighlights
      [⟨0, 5, "green"⟩, ⟨2, 7, "red"⟩]) 3 = some "red" :=
  C2_precedence_amended ⟨0, 5, "green"⟩ ⟨2, 7, "red"⟩ (by decide) (by decide) 3
    (by decide) (by decide)

/-- Claim C4 (line spacing heuristic): within one reconstructed line every
item after the first is separated from the previous one by
`gapSep (item.x - (previous.x + previous.width))` — more than 5 gives
`max(1, floor(gap/5))` spaces, more than 1 gives one space, otherwise
nothing — and the concrete page with items `Hello` at x=0 and `World` at x=40
(both width 30, y=100) reconstructs to `"Hello  World"` with two spaces and
zero indent. -/
theorem C4_line_spacing :
    (∀ (lx : Int) (i : Item) (rest : List Item),
      buildLineAux (some lx) (i :: rest) =
        gapSep (i.x - lx) ++ i.text ++
          buildLineAux (some (i.x + i.width)) rest) ∧
      extractTextFromPDF [[⟨"Hello".toList, 0, 100, 30⟩,
        ⟨"World".toList, 40, 100, 30⟩]] = "Hello  World".toList := by
  constructor
  · intro lx i rest
    simp [buildLineAux, gapSep]
  · decide

/-- Claim C5 (page joining): every page but the last contributes its page text
plus one extra newline, the last page contributes just its text, the whole
concatenation is trimmed; concretely two pages reconstructing to single lines
`A` and `B` yield `"A\n\nB"`. -/
theorem C5_page_joining :
    (∀ (ps : List (List Item)) (p : List Item),
      extractTextFromPDF (ps ++ [p]) =
        trimJs ((ps.map (fun q => pageText q ++ ['\n'])).flatten ++
          pageText p)) ∧
      extractTextFromPDF [[⟨"A".toList, 0, 0, 5⟩], [⟨"B".toList, 0, 0, 5⟩]] =
        "A\n\nB".toList := by
  constructor
  · intro ps p
    rw [extractTextFromPDF, joinPages_append]
  · decide

/-- Claim C6 (whitespace-tolerant matching): a rule text matches any document
snippet obtained from it by replacing each maximal whitespace run with an
arbitrary nonempty whitespace run, all other characters matching literally;
in particular the rule `"A  B"` (two spaces) matches the document snippets
`"A\nB"` and `"A   B"`. -/
theorem C6_whitespace_tolerant :
    (∀ (cs : Bool) (r d : List Char), WsEquiv r d →
      matchAt cs (tokenize r) d = some d.length) ∧
      createHighlightedSegments ("A\nB".toList)
          [⟨"A  B".toList, "red", false⟩] =
        [⟨"A\nB".toList, true, some "red"⟩] ∧
      createHighlightedSegments ("xA   By".toList)
          [⟨"A  B".toList, "red", false⟩] =
        [⟨"x".toList, false, none⟩, ⟨"A   B".toList, true, some "red"⟩,
          ⟨"y".toList, false, none⟩] :=
  ⟨fun cs _ _ h => wsEquiv_matchAt cs h, by decide, by decide⟩

/-- Witness for C6: the general whitespace-tolerance statement applied to the
concrete rule text `"A  B"` and document snippet `"A\nB"`. -/
theorem C6_whitespace_tolerant_witness :
    matchAt true (tokenize ("A  B".toList)) ("A\nB".toList) =
      some (("A\nB".toList).length) := by
  have h1 : WsEquiv ['B'] ['B'] := WsEquiv.lit (by decide) WsEquiv.nil
  have h2 : WsEquiv ([' ', ' '] ++ ['B']) (['\n'] ++ ['B']) :=
    WsEquiv.ws (by decide) (by decide)
      (by intro c hc; simp at hc; subst hc; decide)
      (by intro c hc; simp at hc; subst hc; decide)
      (by intro c hc; simp at hc; subst hc; decide) h1
  have hws : WsEquiv ("A  B".toList) ("A\nB".toList) :=
    WsEquiv.lit (by decide) h2
  exact C6_whitespace_tolerant.1 true _ _ hws

/-- Claim C7 (degenerate segmentation): with an empty rule list, or when no
rule produces any match, `createHighlightedSegments` returns exactly one
non-highlighted segment holding the entire document, and even for the empty
document it returns one empty segment rather than none. -/
theorem C7_degenerate_segmentation :
    (∀ doc : List Char, createHighlightedSegments doc [] =
        [⟨doc, false, none⟩]) ∧
      (∀ (doc : List Char) (rules : List Rule), allHighlights doc rules = [] →
        createHighlightedSegments doc rules = [⟨doc, false, none⟩]) ∧
      createHighlightedSegments [] [] = [⟨[], false, none⟩] := by
  refine ⟨fun doc => by simp [createHighlightedSegments], ?_, by decide⟩
  intro doc rules h
  simp only [createHighlightedSegments]
  split
  · rfl
  · rw [h]
    show (if (segmentsFrom doc 0 []).isEmpty then
        [⟨doc, false, none⟩] else segmentsFrom doc 0 []) = [⟨doc, false, none⟩]
    simp only [segmentsFrom]
    split
    · simp [List.drop_zero]
    · simp

/-- Witness for C7: a rule with no occurrence in the document leaves the whole
document as a single non-highlighted segment. -/
theorem C7_degenerate_segmentation_witness :
    createHighlightedSegments ("xyz".toList) [⟨"q".toList, "red", false⟩] =
      [⟨"xyz".toList, false, none⟩] :=
  C7_degenerate_segmentation.2.1 ("xyz".toList) [⟨"q".toList, "red", false⟩]
    (by decide)

/-- Claim C8, code evaluated at the failing input: the HighlightRule JSDoc in
the same file (and the colors the application actually passes) admit hex
colors such as `#e74c3c`, but `validateHighlightRules` accepts only
`Object.values(HIGHLIGHT_COLORS) = ["red", "green", "yellow"]`, so a rule with
non-empty text and color `#e74c3c` is reported invalid. -/
theorem C8_hex_color_rejected :
    validateHighlightRules [⟨"x".toList, "#e74c3c", some false⟩] =
      ⟨false, ["Rule 1: Color must be one of: red, green, yellow"]⟩ := by
  decide

/-- Claim C9 (zero-length match guard unreachable): for a rule whose text is
non-empty after trimming, every span the scan emits has start < end, and the
scan is unchanged when the zero-length-match guard branch is removed
(`scanLoopNoGuard`), so that branch is never taken and scanning terminates. -/
theorem C9_no_zero_length_matches (r : Rule) (doc : List Char)
    (h : trimJs r.text ≠ []) :
    (ruleSpans doc r).all (fun s => s.start < s.stop) = true ∧
      ruleSpans doc r = scanLoopNoGuard r.caseSensitive (tokenize r.text)
        r.color doc (doc.length + 1) 0 := by
  have hne : r.text ≠ [] := trimJs_ne_nil_imp r.text h
  obtain ⟨c, cs, hc⟩ : ∃ c cs, r.text = c :: cs := by
    cases hrt : r.text with
    | nil => exact absurd hrt hne
    | cons c cs => exact ⟨c, cs, rfl⟩
  obtain ⟨t, ts, htts⟩ : ∃ t ts, tokenize r.text = t :: ts := by
    cases htk : tokenize r.text with
    | nil =>
      rw [hc] at htk
      exact absurd htk (tokenize_cons_ne_nil c cs)
    | cons t ts => exact ⟨t, ts, rfl⟩
  constructor
  · rw [List.all_eq_true]
    intro s hs
    rw [ruleSpans, htts] at hs
    simpa using scanLoop_pos r.caseSensitive t ts r.color doc
      (doc.length + 1) 0 s hs
  · rw [ruleSpans, htts, scanLoop_eq_noGuard, ← htts]

/-- Witness for C9 at a concrete rule with two adjacent matches. -/
theorem C9_no_zero_length_matches_witness :
    ((ruleSpans ("xabab".toList) ⟨"ab".toList, "red", false⟩).all
        (fun s => s.start < s.stop) = true) ∧
      ruleSpans ("xabab".toList) ⟨"ab".toList, "red", false⟩ =
        scanLoopNoGuard false (tokenize ("ab".toList)) "red" ("xabab".toList)
          (("xabab".toList).length + 1) 0 :=
  C9_no_zero_length_matches ⟨"ab".toList, "red", false⟩ ("xabab".toList)
    (by decide)

end LexiLight
